import Mathlib

/-!
Verification of the berty messenger shareable-link codec
(`go/pkg/bertymessenger/links.go`).

The Go code is shallowly embedded: strings are lists of characters, Go byte
slices are `Option (List Nat)` (distinguishing a nil slice from a present,
possibly empty one), and Go's multiple return values / panics are explicit
result types.  The third-party collaborators that `links.go` calls
(`gogo/protobuf`, `eknkc/basex`, `mr-tron/base58`, `net/url`) are modelled
from the specification's interface contract for them (spec sections 1, 4.1,
4.4 and 6): an injective, lossless record serializer and the standard
big-endian base-N text codecs / percent-encoding.
-/

namespace Berty

/-- Strings are modelled as lists of characters. -/
abbrev Str := List Char

/-- Byte strings; elements are byte values (kept below 256 by the encoders). -/
abbrev Bytes := List Nat

/-- Concatenation of a list of lists (used instead of bind for transparency). -/
def flatCat : List (List α) → List α
  | [] => []
  | x :: r => x ++ flatCat r

/-- Go `strings.Split(s, sep)` for a single-character separator.
Always returns at least one (possibly empty) part. -/
def splitOnChar (sep : Char) : Str → List Str
  | [] => [[]]
  | c :: rest =>
    match splitOnChar sep rest with
    | [] => [[]]
    | h :: t => if c = sep then [] :: h :: t else (c :: h) :: t

/-- Go `strings.Join(parts, sep)` for a single-character separator. -/
def joinChar (sep : Char) : List Str → Str
  | [] => []
  | [x] => x
  | x :: y :: t => x ++ sep :: joinChar sep (y :: t)

/-- Unicode simple lower-casing of one character, as applied rune-by-rune by
Go's `strings.ToLower`: ASCII `A`-`Z` shift by 32, and the only two non-ASCII
code points whose simple lowercase mapping is an ASCII character, U+0130
(latin capital letter I with dot above, lowercased to `i`) and U+212A (Kelvin
sign, lowercased to `k`).  Every other Unicode simple mapping sends a
non-ASCII character to a non-ASCII character, so leaving those characters
unchanged cannot alter any comparison against the ASCII prefix and tag
constants of links.go. -/
def lowerChar (c : Char) : Char :=
  if 'A' ≤ c ∧ c ≤ 'Z' then Char.ofNat (c.toNat + 32)
  else if c.toNat = 0x130 then 'i'
  else if c.toNat = 0x212A then 'k'
  else c

/-- Go `strings.ToLower` (simple case mapping, see `lowerChar`). -/
def toLowerStr (s : Str) : Str := s.map lowerChar

/-- Go `strings.HasPrefix`. -/
def strHasPref (s p : Str) : Bool := p.isPrefixOf s

/-- Element at an index with a default character (alphabet lookup). -/
def nthD : Str → Nat → Char
  | [], _ => 'A'
  | a :: _, 0 => a
  | _ :: r, n + 1 => nthD r n

/-- Index of a character in an alphabet, `none` when absent. -/
def charIndex : Str → Char → Option Nat
  | [], _ => none
  | a :: rest, c => if a = c then some 0 else (charIndex rest c).map (· + 1)

/-- Number of leading zero bytes of a byte string. -/
def countLeadZeros : Bytes → Nat
  | [] => 0
  | b :: rest => if b = 0 then countLeadZeros rest + 1 else 0

/-- Map a fallible function over a list, failing if any element fails. -/
def mapOption (f : α → Option β) : List α → Option (List β)
  | [] => some []
  | a :: rest =>
    match f a, mapOption f rest with
    | some b, some bs => some (b :: bs)
    | _, _ => none

/-- Little-endian base-`b` digit expansion, with explicit fuel so that the
function is structurally recursive (and hence kernel-evaluable). -/
def digitsF (b : Nat) : Nat → Nat → List Nat
  | 0, _ => []
  | _ + 1, 0 => []
  | fuel + 1, n + 1 => (n + 1) % b :: digitsF b fuel ((n + 1) / b)

/-- Little-endian base-`b` digit expansion of a natural number. -/
def natDigits (b n : Nat) : List Nat := digitsF b n n

/-- Value of a little-endian digit list. -/
def digitsVal (b : Nat) : List Nat → Nat
  | [] => 0
  | d :: ds => d + b * digitsVal b ds

/-- Mark all digits but the last with a continuation bit (values shifted by
128); the empty digit list maps to a single zero byte. -/
def markCont : List Nat → List Nat
  | [] => [0]
  | [d] => [d]
  | d :: e :: rest => (d + 128) :: markCont (e :: rest)

/-- Variable-length (base-128, little-endian) encoding of a natural number. -/
def natToVar (n : Nat) : List Nat := markCont (natDigits 128 n)

/-- Read one variable-length natural number from a byte stream. -/
def readVar : List Nat → Option (Nat × List Nat)
  | [] => none
  | x :: rest =>
    if x < 128 then some (x, rest)
    else
      match readVar rest with
      | none => none
      | some (n, r) => some ((x - 128) + 128 * n, r)

/-- Modelled from the spec (section 4.1): alphabet-parameterized base-N text
encoder.  Input bytes are an arbitrary-precision big-endian number; each
leading zero byte becomes a leading copy of the first alphabet character. -/
def baseNEncode (alph : Str) (b : Bytes) : Str :=
  let z := countLeadZeros b
  let v := digitsVal 256 b.reverse
  List.replicate z (nthD alph 0) ++ (natDigits alph.length v).reverse.map (nthD alph)

/-- Modelled from the spec (section 4.1): alphabet-parameterized base-N text
decoder; fails on any character outside the alphabet. -/
def baseNDecode (alph : Str) (s : Str) : Option Bytes :=
  match mapOption (charIndex alph) s with
  | none => none
  | some vals =>
    let z := countLeadZeros vals
    let v := digitsVal alph.length vals.reverse
    some (List.replicate z 0 ++ (natDigits 256 v).reverse)

/-! ### Data model (links.go / bertytypes, spec section 3) -/

/-- Kind tag of a shareable link (`BertyLink_Kind` enum). -/
inductive LinkKind
  | UnknownKind
  | ContactInviteV1Kind
  | GroupV1Kind
deriving DecidableEq

/-- Group type enum from `bertytypes`; only the multi-member type is shareable. -/
inductive GroupType
  | Undefined
  | Account
  | Contact
  | MultiMember
deriving DecidableEq

/-- Modelled from the spec (section 3): the group descriptor carried by a
`GroupV1` record (`bertytypes.Group`, not part of the visible core). Byte
slice fields are `Option Bytes` so that a nil Go slice is distinguished from
a present empty one. -/
structure Group where
  PublicKey : Option Bytes
  Secret : Option Bytes
  SecretSig : Option Bytes
  GroupType : GroupType
  SignPub : Option Bytes
deriving DecidableEq

/-- The `BertyGroup` sub-record: a pointer to the group descriptor plus a
display name.  `Group = none` models a nil inner pointer. -/
structure BertyGroup where
  Group : Option Group
  DisplayName : Str
deriving DecidableEq

/-- The `BertyID` sub-record of a contact invite. -/
structure BertyID where
  PublicRendezvousSeed : Option Bytes
  AccountPK : Option Bytes
  DisplayName : Str
deriving DecidableEq

/-- The link record (`BertyLink`): a kind tag plus two optional sub-records
(nil-able pointers in Go, hence both may be present or absent regardless of
the kind). -/
structure BertyLink where
  Kind : LinkKind
  BertyID : Option BertyID
  BertyGroup : Option BertyGroup
deriving DecidableEq

/-! ### Modelled binary serializer

Modelled from the spec (sections 1 and 6): `links.go` delegates record
serialization to an external schema-driven binary codec
(`serialize(record) -> bytes` / `deserialize(bytes) -> record`) that the spec
requires to be total and lossless for records and fail-fast on malformed
bytes.  The model below is a concrete such codec: fields are emitted in
declaration order, numbers as little-endian base-128 varints, byte strings
and display names length-prefixed, optional fields behind a presence byte. -/

/-- Presence-prefixed encoding of an optional field. -/
def encOptWith (f : α → List Nat) : Option α → List Nat
  | none => [0]
  | some a => 1 :: f a

/-- Read back a presence-prefixed optional field. -/
def readOptWith (rd : List Nat → Option (α × List Nat)) :
    List Nat → Option (Option α × List Nat)
  | [] => none
  | 0 :: r => some (none, r)
  | 1 :: r =>
    match rd r with
    | none => none
    | some (a, r') => some (some a, r')
  | _ :: _ => none

/-- Length-prefixed encoding of a list of numbers (each one a varint). -/
def encBytes (l : List Nat) : List Nat :=
  natToVar l.length ++ flatCat (l.map natToVar)

/-- Read `k` varints. -/
def readNVars : Nat → List Nat → Option (List Nat × List Nat)
  | 0, r => some ([], r)
  | k + 1, r =>
    match readVar r with
    | none => none
    | some (n, r') =>
      match readNVars k r' with
      | none => none
      | some (ns, r'') => some (n :: ns, r'')

/-- Read back a length-prefixed list of numbers. -/
def readBytes (r : List Nat) : Option (List Nat × List Nat) :=
  match readVar r with
  | none => none
  | some (len, r') => readNVars len r'

/-- Strings are serialized through their character codes. -/
def encStr (s : Str) : List Nat := encBytes (s.map Char.toNat)

/-- Read back a serialized string. -/
def readStr (r : List Nat) : Option (Str × List Nat) :=
  match readBytes r with
  | none => none
  | some (l, r') => some (l.map Char.ofNat, r')

/-- Numeric value of the link kind enum (proto enum values 0, 1, 2). -/
def kindToNat : LinkKind → Nat
  | .UnknownKind => 0
  | .ContactInviteV1Kind => 1
  | .GroupV1Kind => 2

/-- Link kind from its numeric enum value. -/
def kindOfNat : Nat → Option LinkKind
  | 0 => some .UnknownKind
  | 1 => some .ContactInviteV1Kind
  | 2 => some .GroupV1Kind
  | _ => none

/-- Numeric value of the group type enum (proto enum values 0-3). -/
def groupTypeToNat : GroupType → Nat
  | .Undefined => 0
  | .Account => 1
  | .Contact => 2
  | .MultiMember => 3

/-- Group type from its numeric enum value. -/
def groupTypeOfNat : Nat → Option GroupType
  | 0 => some .Undefined
  | 1 => some .Account
  | 2 => some .Contact
  | 3 => some .MultiMember
  | _ => none

/-- Serialize a group descriptor. -/
def encGroup (g : Group) : List Nat :=
  encOptWith encBytes g.PublicKey ++ encOptWith encBytes g.Secret
    ++ encOptWith encBytes g.SecretSig ++ natToVar (groupTypeToNat g.GroupType)
    ++ encOptWith encBytes g.SignPub

/-- Deserialize a group descriptor. -/
def readGroup (r : List Nat) : Option (Group × List Nat) :=
  match readOptWith readBytes r with
  | none => none
  | some (pk, r1) =>
    match readOptWith readBytes r1 with
    | none => none
    | some (sec, r2) =>
      match readOptWith readBytes r2 with
      | none => none
      | some (sig, r3) =>
        match readVar r3 with
        | none => none
        | some (gtn, r4) =>
          match groupTypeOfNat gtn with
          | none => none
          | some gt =>
            match readOptWith readBytes r4 with
            | none => none
            | some (sp, r5) => some (⟨pk, sec, sig, gt, sp⟩, r5)

/-- Serialize a `BertyID`. -/
def encBertyID (id : BertyID) : List Nat :=
  encOptWith encBytes id.PublicRendezvousSeed ++ encOptWith encBytes id.AccountPK
    ++ encStr id.DisplayName

/-- Deserialize a `BertyID`. -/
def readBertyID (r : List Nat) : Option (BertyID × List Nat) :=
  match readOptWith readBytes r with
  | none => none
  | some (seed, r1) =>
    match readOptWith readBytes r1 with
    | none => none
    | some (apk, r2) =>
      match readStr r2 with
      | none => none
      | some (dn, r3) => some (⟨seed, apk, dn⟩, r3)

/-- Serialize a `BertyGroup`. -/
def encBertyGroup (bg : BertyGroup) : List Nat :=
  encOptWith encGroup bg.Group ++ encStr bg.DisplayName

/-- Deserialize a `BertyGroup`. -/
def readBertyGroup (r : List Nat) : Option (BertyGroup × List Nat) :=
  match readOptWith readGroup r with
  | none => none
  | some (g, r1) =>
    match readStr r1 with
    | none => none
    | some (dn, r2) => some (⟨g, dn⟩, r2)

/-- Modelled from the spec (section 6): `serialize(record) -> bytes`. -/
def protoMarshal (l : BertyLink) : List Nat :=
  natToVar (kindToNat l.Kind) ++ encOptWith encBertyID l.BertyID
    ++ encOptWith encBertyGroup l.BertyGroup

/-- Modelled from the spec (section 6): `deserialize(bytes) -> record`,
fail-fast on malformed byte strings. -/
def protoUnmarshal (b : List Nat) : Option BertyLink :=
  match readVar b with
  | none => none
  | some (kn, r1) =>
    match kindOfNat kn with
    | none => none
    | some kind =>
      match readOptWith readBertyID r1 with
      | none => none
      | some (oid, r2) =>
        match readOptWith readBertyGroup r2 with
        | none => none
        | some (obg, r3) => if r3 = [] then some ⟨kind, oid, obg⟩ else none

/-! ### Modelled `net/url` query-string encoding

Modelled from the spec (section 4.4): human parameters travel as a standard
URL query string, `key=value` pairs joined by `&` with percent-escaped keys
and values.  The escaping works per character (fixed-width six-hex-digit
escapes) rather than per UTF-8 byte; this preserves the interface contract
(escaped text avoids all separator characters and decoding inverts encoding). -/

/-- Upper-case hexadecimal digit characters. -/
def ucHexChars : Str := "0123456789ABCDEF".toList

/-- Hexadecimal digit character for a value below 16. -/
def hexDigitChar (d : Nat) : Char := nthD ucHexChars d

/-- Fixed-width big-endian hexadecimal rendering (`k` digits). -/
def hexFixed : Nat → Nat → List Char
  | 0, _ => []
  | k + 1, n => hexFixed k (n / 16) ++ [hexDigitChar (n % 16)]

/-- Value of one hexadecimal digit character (either case). -/
def hexVal (c : Char) : Option Nat :=
  match charIndex ucHexChars c with
  | some i => some i
  | none => (charIndex "abcdef".toList c).map (· + 10)

/-- Accumulating big-endian hexadecimal parser. -/
def hexParseAcc : Nat → Str → Option Nat
  | acc, [] => some acc
  | acc, c :: rest =>
    match hexVal c with
    | none => none
    | some d => hexParseAcc (acc * 16 + d) rest

/-- Characters that query escaping leaves untouched. -/
def isUnreservedChar (c : Char) : Bool :=
  c.isAlphanum || c = '-' || c = '_' || c = '.' || c = '~'

/-- Escape one character: unreserved characters stay, space becomes `+`,
anything else becomes a `%`-escape. -/
def queryEscapeChar (c : Char) : Str :=
  if isUnreservedChar c then [c]
  else if c = ' ' then ['+']
  else '%' :: hexFixed 6 c.toNat

/-- Go `url.QueryEscape` (modelled, see above). -/
def queryEscape (s : Str) : Str := flatCat (s.map queryEscapeChar)

/-- Go `url.QueryUnescape` (modelled): inverts `queryEscape`, failing on a
truncated or malformed `%`-escape. -/
def unescape : Str → Option Str
  | [] => some []
  | c :: rest =>
    if c = '%' then
      match rest with
      | a :: b :: c2 :: d :: e :: f :: rest' =>
        match hexParseAcc 0 [a, b, c2, d, e, f], unescape rest' with
        | some n, some t => some (Char.ofNat n :: t)
        | _, _ => none
      | _ => none
    else if c = '+' then (unescape rest).map (fun t => ' ' :: t)
    else (unescape rest).map (fun t => c :: t)

/-- Go `url.Values`: ordered key/value pairs (`Add` appends, `Get` takes the
first value for a key). -/
abbrev UrlValues := List (Str × Str)

/-- Go `url.Values.Encode` (modelled): `key=value` pairs joined by `&`, both
sides percent-escaped.  Key sorting is omitted: the marshaller only ever adds
the single key `name`. -/
def valuesEncode : UrlValues → Str
  | [] => []
  | [(k, v)] => queryEscape k ++ '=' :: queryEscape v
  | (k, v) :: rest => queryEscape k ++ '=' :: queryEscape v ++ '&' :: valuesEncode rest

/-- Go `url.Values.Get`: first value for a key, empty when absent (also on a
nil map). -/
def valuesGet (key : Str) : UrlValues → Str
  | [] => []
  | (k, v) :: rest => if k = key then v else valuesGet key rest

/-- Parse the `&`-separated segments of a query string. -/
def parseSegs : List Str → Option UrlValues
  | [] => some []
  | seg :: rest =>
    if seg = [] then parseSegs rest
    else
      match unescape (seg.takeWhile (fun c => c != '=')),
          unescape ((seg.dropWhile (fun c => c != '=')).drop 1),
          parseSegs rest with
      | some k, some v, some tail => some ((k, v) :: tail)
      | _, _, _ => none

/-- Go `url.ParseQuery` (modelled): split on `&`, split each segment at the
first `=`, unescape both sides, fail on malformed escapes. -/
def parseQuery (s : Str) : Option UrlValues := parseSegs (splitOnChar '&' s)

/-! ### Constants of links.go -/

/-- Web-form prefix (`LinkWebPrefix` constant). -/
def LinkWebPref : Str := "https://berty.tech/id#".toList

/-- Internal-form prefix (`LinkInternalPrefix` constant). -/
def LinkInternalPref : Str := "BERTY://".toList

/-- Alphabet of the internal form's base encoder (`qrBaseEncoder`): QR
alphanumeric characters with space, percent and plus removed. -/
def qrAlphabetStr : Str := "ABCDEFGHIJKLMNOPQRSTUVWXYZ0123456789$*-.:/".toList

/-- The full 45-character QR alphanumeric-mode character set (digits,
upper-case letters, and the nine symbols), as listed in the qrBaseEncoder
comment and the spec (section 4.1). -/
def qrAlphanumeric45 : Str := "0123456789ABCDEFGHIJKLMNOPQRSTUVWXYZ $%*+-./:".toList

/-- Bitcoin-style base58 alphabet used for the web form's binary blob
(`mr-tron/base58`, modelled from the spec, section 4.1). -/
def base58Alphabet : Str :=
  "123456789ABCDEFGHJKLMNPQRSTUVWXYZabcdefghijkmnopqrstuvwxyz".toList

/-! ### links.go: IsValid, Marshal, UnmarshalLink -/

/-- Error codes observed by callers (`errcode`); wrapping preserves the code. -/
inductive Errcode
  | ErrMissingInput
  | ErrInvalidInput
deriving DecidableEq

/-- Result of `IsValid`: success, a typed error, or a nil-pointer panic. -/
inductive ValidRes
  | ok
  | err (e : Errcode)
  | nilPanic
deriving DecidableEq

/-- Result of `Marshal`: the Go triple `(internal, web, err)`, or a
nil-pointer panic. -/
inductive MarshalResult
  | ret (internal web : Str) (err : Option Errcode)
  | nilPanic
deriving DecidableEq

/-- `(*BertyLink).IsValid` from links.go.  In the `GroupV1` arm the Go code
dereferences `link.BertyGroup.Group.GroupType` without checking `Group` for
nil, which panics when the inner descriptor is absent; that is the
`nilPanic` case. -/
def IsValid : Option BertyLink → ValidRes
  | none => .err .ErrMissingInput
  | some l =>
    match l.Kind with
    | .ContactInviteV1Kind =>
      match l.BertyID with
      | none => .err .ErrMissingInput
      | some id =>
        if id.AccountPK = none ∨ id.PublicRendezvousSeed = none then
          .err .ErrMissingInput
        else .ok
    | .GroupV1Kind =>
      match l.BertyGroup with
      | none => .err .ErrMissingInput
      | some bg =>
        match bg.Group with
        | none => .nilPanic
        | some g =>
          if g.GroupType ≠ .MultiMember then .err .ErrInvalidInput else .ok
    | .UnknownKind => .err .ErrInvalidInput

/-- Shared tail of `Marshal`: build the web URL from the kind tag, the machine
record and the human parameters, and the internal URL from the unreduced
record. -/
def finishMarshal (kindTag : Str) (machine : BertyLink) (human : UrlValues)
    (qrOptimized : BertyLink) : MarshalResult :=
  let machineBin := protoMarshal machine
  let machineEncoded := baseNEncode base58Alphabet machineBin
  let path0 := kindTag ++ '/' :: machineEncoded
  let path := if human ≠ [] then path0 ++ '/' :: valuesEncode human else path0
  let web := LinkWebPref ++ path
  let qrBin := protoMarshal qrOptimized
  let internal := LinkInternalPref ++ "PB/".toList ++ baseNEncode qrAlphabetStr qrBin
  .ret internal web none

/-- `(*BertyLink).Marshal` from links.go. -/
def Marshal : Option BertyLink → MarshalResult
  | none => .ret [] [] (some .ErrMissingInput)
  | some l =>
    if l.Kind = .UnknownKind then .ret [] [] (some .ErrMissingInput)
    else
      match IsValid (some l) with
      | .nilPanic => .nilPanic
      | .err e => .ret [] [] (some e)
      | .ok =>
        match l.Kind with
        | .ContactInviteV1Kind =>
          match l.BertyID with
          | none => .nilPanic
          | some id =>
            finishMarshal "contact".toList
              ⟨.UnknownKind, some ⟨id.PublicRendezvousSeed, id.AccountPK, []⟩, none⟩
              (if id.DisplayName ≠ [] then [("name".toList, id.DisplayName)] else [])
              l
        | .GroupV1Kind =>
          match l.BertyGroup with
          | none => .nilPanic
          | some bg =>
            match bg.Group with
            | none => .nilPanic
            | some g =>
              finishMarshal "group".toList
                ⟨.UnknownKind, none,
                  some ⟨some ⟨g.PublicKey, g.Secret, g.SecretSig, g.GroupType,
                    g.SignPub⟩, []⟩⟩
                (if bg.DisplayName ≠ [] then [("name".toList, bg.DisplayName)] else [])
                l
        | .UnknownKind => .ret [] [] (some .ErrInvalidInput)

/-- Per-kind merge step of the web decoder (the `switch kind := parts[0]`
block of `UnmarshalLink`): set the kind from the tag, materialize the
sub-record, and fill in a missing display name from the human `name`
parameter. -/
def webKindMerge (tag : Str) (link : BertyLink) (human : UrlValues) :
    Except Errcode BertyLink :=
  if tag = "contact".toList then
    let id0 := link.BertyID.getD ⟨none, none, []⟩
    let nm := valuesGet "name".toList human
    let id1 := if nm ≠ [] ∧ id0.DisplayName = [] then
        { id0 with DisplayName := nm } else id0
    .ok { link with Kind := .ContactInviteV1Kind, BertyID := some id1 }
  else if tag = "group".toList then
    let bg0 := link.BertyGroup.getD ⟨none, []⟩
    let nm := valuesGet "name".toList human
    let bg1 := if nm ≠ [] ∧ bg0.DisplayName = [] then
        { bg0 with DisplayName := nm } else bg0
    .ok { link with Kind := .GroupV1Kind, BertyGroup := some bg1 }
  else .error .ErrInvalidInput

/-- `UnmarshalLink` from links.go.  `url.Parse` is modelled per the spec
(section 4.4) as extraction of the text after the first `#`; the code only
uses it to require a non-empty fragment. -/
def UnmarshalLink (uri : Str) : Except Errcode BertyLink :=
  if uri = [] then .error .ErrMissingInput
  else if strHasPref (toLowerStr uri) (toLowerStr LinkInternalPref) then
    let right := uri.drop LinkInternalPref.length
    let parts := splitOnChar '/' right
    if parts.length < 2 then .error .ErrInvalidInput
    else if toLowerStr (parts.headD []) = "pb".toList then
      match baseNDecode qrAlphabetStr (joinChar '/' (parts.drop 1)) with
      | none => .error .ErrInvalidInput
      | some qrBin =>
        match protoUnmarshal qrBin with
        | none => .error .ErrInvalidInput
        | some link => .ok link
    else .error .ErrInvalidInput
  else if strHasPref (toLowerStr uri) (toLowerStr LinkWebPref) then
    let rawFragment := joinChar '#' ((splitOnChar '#' uri).drop 1)
    if rawFragment = [] then .error .ErrInvalidInput
    else
      let parts := splitOnChar '/' rawFragment
      if parts.length < 2 then .error .ErrInvalidInput
      else
        match baseNDecode base58Alphabet (parts.getD 1 []) with
        | none => .error .ErrInvalidInput
        | some machineBin =>
          match protoUnmarshal machineBin with
          | none => .error .ErrInvalidInput
          | some link0 =>
            match (if 2 < parts.length then
                parseQuery (joinChar '/' (parts.drop 2)) else some []) with
            | none => .error .ErrInvalidInput
            | some human => webKindMerge (parts.headD []) link0 human
  else .error .ErrInvalidInput

/-- Decidable equality of decoder results (used to evaluate concrete runs). -/
instance {ε α : Type} [DecidableEq ε] [DecidableEq α] : DecidableEq (Except ε α) :=
  fun x y =>
    match x, y with
    | .ok a, .ok b => decidable_of_iff (a = b) (by simp)
    | .error e, .error f => decidable_of_iff (e = f) (by simp)
    | .ok _, .error _ => isFalse (by simp)
    | .error _, .ok _ => isFalse (by simp)

/-- Concrete contact record used to witness the round-trip claims. -/
def c1Rec : BertyLink :=
  ⟨.ContactInviteV1Kind, some ⟨some [3, 2, 1], some [1, 2, 3, 4], "Alice".toList⟩,
    none⟩

/-- Internal URL produced by marshalling the witness record. -/
def c1URI : Str :=
  match Marshal (some c1Rec) with
  | .ret i _ _ => i
  | .nilPanic => []

/-- Web URL produced by marshalling the witness record. -/
def c1Web : Str :=
  match Marshal (some c1Rec) with
  | .ret _ w _ => w
  | .nilPanic => []

/-- The machine record that `Marshal` builds for a contact invite: only the
rendezvous seed and the account public key, no display name, no group. -/
def contactMachine (id : BertyID) : BertyLink :=
  ⟨.UnknownKind, some ⟨id.PublicRendezvousSeed, id.AccountPK, []⟩, none⟩

/-- Record used to witness the web-form claims (non-empty display name). -/
def c8Rec : BertyLink :=
  ⟨.ContactInviteV1Kind, some ⟨some [9, 8], some [7, 6, 5], "Bob".toList⟩, none⟩

/-- The `BertyID` of the C8 witness record. -/
def c8ID : BertyID := ⟨some [9, 8], some [7, 6, 5], "Bob".toList⟩

/-- Internal URL of the C8 witness record. -/
def c8URI : Str :=
  match Marshal (some c8Rec) with
  | .ret i _ _ => i
  | .nilPanic => []

/-- Web URL of the C8 witness record. -/
def c8Web : Str :=
  match Marshal (some c8Rec) with
  | .ret _ w _ => w
  | .nilPanic => []

/-- Record used to witness C2 (non-empty display name). -/
def c2Rec : BertyLink :=
  ⟨.ContactInviteV1Kind, some ⟨some [11, 12], some [13], "Carol".toList⟩, none⟩

/-- The `BertyID` of the C2 witness record. -/
def c2ID : BertyID := ⟨some [11, 12], some [13], "Carol".toList⟩

/-- Internal URL of the C2 witness record. -/
def c2URI : Str :=
  match Marshal (some c2Rec) with
  | .ret i _ _ => i
  | .nilPanic => []

/-- Web URL of the C2 witness record. -/
def c2Web : Str :=
  match Marshal (some c2Rec) with
  | .ret _ w _ => w
  | .nilPanic => []

/-- Group record used to witness C6 (account-type group, not shareable). -/
def c6Rec : BertyLink :=
  ⟨.GroupV1Kind, none,
    some ⟨some ⟨some [1], some [2], some [3], .Account, some [4]⟩, "G".toList⟩⟩


theorem splitOnChar_ne_nil (sep : Char) (s : Str) : splitOnChar sep s ≠ [] := by
  induction s with
  | nil => simp [splitOnChar]
  | cons c rest ih =>
    simp only [splitOnChar]
    split
    · simp
    · split <;> simp

theorem joinChar_splitOnChar (sep : Char) (s : Str) :
    joinChar sep (splitOnChar sep s) = s := by
  induction s with
  | nil => rfl
  | cons c rest ih =>
    simp only [splitOnChar]
    cases h : splitOnChar sep rest with
    | nil => exact absurd h (splitOnChar_ne_nil sep rest)
    | cons h' t =>
      rw [h] at ih
      by_cases hc : c = sep
      · subst hc
        simpa [joinChar] using ih
      · simp only [if_neg hc]
        cases t with
        | nil => simpa [joinChar] using ih
        | cons y t' => simpa [joinChar] using ih

theorem splitOnChar_of_not_mem {sep : Char} {s : Str} (h : sep ∉ s) :
    splitOnChar sep s = [s] := by
  induction s with
  | nil => rfl
  | cons c rest ih =>
    simp only [List.mem_cons, not_or] at h
    simp only [splitOnChar, ih h.2, if_neg (Ne.symm h.1)]

theorem splitOnChar_append_cons {sep : Char} {a : Str} (h : sep ∉ a) (r : Str) :
    splitOnChar sep (a ++ sep :: r) = a :: splitOnChar sep r := by
  induction a with
  | nil =>
    simp only [List.nil_append, splitOnChar]
    cases hs : splitOnChar sep r with
    | nil => exact absurd hs (splitOnChar_ne_nil sep r)
    | cons h' t => simp
  | cons c a' ih =>
    simp only [List.mem_cons, not_or] at h
    have hrec := ih h.2
    simp only [List.cons_append, splitOnChar, if_neg (Ne.symm h.1)]
    rw [show splitOnChar sep (a'.append (sep :: r)) = a' :: splitOnChar sep r from hrec]

theorem toLowerStr_append (a b : Str) :
    toLowerStr (a ++ b) = toLowerStr a ++ toLowerStr b := by
  simp [toLowerStr]

theorem isPrefixOf_append_self (p r : Str) : p.isPrefixOf (p ++ r) = true := by
  induction p with
  | nil => simp [List.isPrefixOf]
  | cons c p' ih => simp [List.isPrefixOf, ih]

theorem strHasPref_append_self (p r : Str) : strHasPref (p ++ r) p = true :=
  isPrefixOf_append_self p r

theorem drop_len_append (a b : List α) : (a ++ b).drop a.length = b := by
  induction a with
  | nil => rfl
  | cons c a' ih => exact ih

theorem nthD_mem {s : Str} {n : Nat} (h : n < s.length) : nthD s n ∈ s := by
  induction s generalizing n with
  | nil => simp at h
  | cons a r ih =>
    cases n with
    | zero => simp [nthD]
    | succ m =>
      simp only [List.length_cons, Nat.succ_lt_succ_iff] at h
      exact List.mem_cons_of_mem _ (ih h)

theorem charIndex_nthD {s : Str} (hnd : s.Nodup) {n : Nat} (h : n < s.length) :
    charIndex s (nthD s n) = some n := by
  induction s generalizing n with
  | nil => simp at h
  | cons a r ih =>
    cases n with
    | zero => simp [nthD, charIndex]
    | succ m =>
      simp only [List.length_cons, Nat.succ_lt_succ_iff] at h
      have hne : a ≠ nthD r m := by
        intro heq
        exact (List.nodup_cons.mp hnd).1 (heq ▸ nthD_mem h)
      simp [nthD, charIndex, if_neg hne, ih (List.nodup_cons.mp hnd).2 h]

theorem countLeadZeros_decomp (b : Bytes) :
    b = List.replicate (countLeadZeros b) 0 ++ b.drop (countLeadZeros b) := by
  induction b with
  | nil => rfl
  | cons x rest ih =>
    by_cases hx : x = 0
    · subst hx
      simp only [countLeadZeros, if_pos rfl, List.replicate_succ,
        List.cons_append, List.drop_succ_cons]
      exact congrArg _ ih
    · simp [countLeadZeros, if_neg hx]

theorem countLeadZeros_drop_head (b : Bytes) :
    (b.drop (countLeadZeros b)).head? ≠ some 0 := by
  induction b with
  | nil => simp
  | cons x rest ih =>
    by_cases hx : x = 0
    · subst hx
      simpa [countLeadZeros] using ih
    · simpa [countLeadZeros, if_neg hx] using hx

theorem countLeadZeros_replicate_append {c : Bytes} (h : c.head? ≠ some 0)
    (z : Nat) : countLeadZeros (List.replicate z 0 ++ c) = z := by
  induction z with
  | zero =>
    cases c with
    | nil => rfl
    | cons x r =>
      have : x ≠ 0 := by simpa using h
      simp [countLeadZeros, this]
  | succ m ih => simp [List.replicate_succ, countLeadZeros, ih]

theorem mapOption_append {f : α → Option β} {l₁ l₂ : List α} {r₁ r₂ : List β}
    (h₁ : mapOption f l₁ = some r₁) (h₂ : mapOption f l₂ = some r₂) :
    mapOption f (l₁ ++ l₂) = some (r₁ ++ r₂) := by
  induction l₁ generalizing r₁ with
  | nil =>
    simp [mapOption] at h₁
    subst h₁
    simpa using h₂
  | cons a rest ih =>
    simp only [mapOption] at h₁
    cases hfa : f a with
    | none => rw [hfa] at h₁; exact absurd h₁ (by simp)
    | some b =>
      rw [hfa] at h₁
      cases hrest : mapOption f rest with
      | none => rw [hrest] at h₁; exact absurd h₁ (by simp)
      | some bs =>
        rw [hrest] at h₁
        simp only [Option.some.injEq] at h₁
        subst h₁
        have hr := ih hrest
        simp [List.cons_append, mapOption, hfa, hr]

theorem mapOption_eq_map {f : α → Option β} {g : α → β} {l : List α}
    (h : ∀ x ∈ l, f x = some (g x)) : mapOption f l = some (l.map g) := by
  induction l with
  | nil => rfl
  | cons a rest ih =>
    simp only [mapOption, h a (List.mem_cons_self a rest),
      ih (fun x hx => h x (List.mem_cons_of_mem a hx)), List.map_cons]

theorem digitsVal_eq_ofDigits (b : Nat) (l : List Nat) :
    digitsVal b l = Nat.ofDigits b l := by
  induction l with
  | nil => simp [digitsVal, Nat.ofDigits_nil]
  | cons d ds ih => simp [digitsVal, Nat.ofDigits_cons, ih]

theorem digitsF_eq_digits {b : Nat} (hb : 2 ≤ b) :
    ∀ fuel n, n ≤ fuel → digitsF b fuel n = Nat.digits b n := by
  intro fuel
  induction fuel with
  | zero =>
    intro n hn
    interval_cases n
    simp [digitsF]
  | succ f ih =>
    intro n hn
    cases n with
    | zero => simp [digitsF]
    | succ m =>
      have hdiv : (m + 1) / b ≤ f := by
        have h1 : (m + 1) / b < m + 1 := Nat.div_lt_self (Nat.succ_pos m) hb
        omega
      rw [digitsF, ih _ hdiv, Nat.digits_def' (by omega : 1 < b) (Nat.succ_pos m)]

theorem natDigits_eq_digits {b : Nat} (hb : 2 ≤ b) (n : Nat) :
    natDigits b n = Nat.digits b n :=
  digitsF_eq_digits hb n n (Nat.le_refl n)

theorem digitsVal_replicate_zero (b z : Nat) :
    digitsVal b (List.replicate z 0) = 0 := by
  induction z with
  | zero => rfl
  | succ m ih => simp [List.replicate_succ, digitsVal, ih]

theorem digitsVal_append (b : Nat) (l₁ l₂ : List Nat) :
    digitsVal b (l₁ ++ l₂) = digitsVal b l₁ + b ^ l₁.length * digitsVal b l₂ := by
  simp [digitsVal_eq_ofDigits, Nat.ofDigits_append]

theorem readVar_cons_ge {x : Nat} (hx : ¬x < 128) {rest r' : List Nat} {n : Nat}
    (h : readVar rest = some (n, r')) :
    readVar (x :: rest) = some ((x - 128) + 128 * n, r') := by
  simp [readVar, hx, h]

theorem readVar_markCont {ds : List Nat} (h : ∀ d ∈ ds, d < 128) (r : List Nat) :
    readVar (markCont ds ++ r) = some (digitsVal 128 ds, r) := by
  induction ds with
  | nil => simp [markCont, digitsVal, readVar]
  | cons d tl ih =>
    cases tl with
    | nil =>
      have hd : d < 128 := h d (List.mem_cons_self d [])
      simp [markCont, digitsVal, readVar, hd]
    | cons e rest =>
      have htl : ∀ x ∈ e :: rest, x < 128 :=
        fun x hx => h x (List.mem_cons_of_mem d hx)
      have hge : ¬(d + 128 < 128) := by omega
      have step : markCont (d :: e :: rest) ++ r
          = (d + 128) :: (markCont (e :: rest) ++ r) := rfl
      rw [step, readVar_cons_ge hge (ih htl)]
      simp only [digitsVal, Option.some.injEq, Prod.mk.injEq, and_true]
      omega

theorem readVar_natToVar (n : Nat) (r : List Nat) :
    readVar (natToVar n ++ r) = some (n, r) := by
  have hlt : ∀ d ∈ natDigits 128 n, d < 128 := by
    rw [natDigits_eq_digits (by omega)]
    exact fun d hd => Nat.digits_lt_base (by omega) hd
  rw [natToVar, readVar_markCont hlt, digitsVal_eq_ofDigits,
    natDigits_eq_digits (by omega), Nat.ofDigits_digits]

theorem markCont_lt_256 {ds : List Nat} (h : ∀ d ∈ ds, d < 128) :
    ∀ x ∈ markCont ds, x < 256 := by
  induction ds with
  | nil => simp [markCont]
  | cons d tl ih =>
    cases tl with
    | nil =>
      intro x hx
      simp [markCont] at hx
      have := h d (List.mem_cons_self _ _)
      omega
    | cons e rest =>
      intro x hx
      simp only [markCont, List.mem_cons] at hx
      rcases hx with hx | hx
      · have := h d (List.mem_cons_self _ _)
        omega
      · exact ih (fun y hy => h y (List.mem_cons_of_mem d hy)) x hx

theorem natToVar_lt_256 (n : Nat) : ∀ x ∈ natToVar n, x < 256 := by
  apply markCont_lt_256
  rw [natDigits_eq_digits (by omega)]
  exact fun d hd => Nat.digits_lt_base (by omega) hd

theorem baseNEncode_mem_alph {alph : Str} (h2 : 2 ≤ alph.length) (b : Bytes) :
    ∀ c ∈ baseNEncode alph b, c ∈ alph := by
  intro c hc
  simp only [baseNEncode, List.mem_append, List.mem_replicate, List.mem_map] at hc
  rcases hc with ⟨_, rfl⟩ | ⟨d, hd, rfl⟩
  · exact nthD_mem (by omega)
  · apply nthD_mem
    rw [List.mem_reverse, natDigits_eq_digits h2] at hd
    exact Nat.digits_lt_base (by omega) hd

theorem digitsVal_reverse_replicate_append (base : Nat) (z : Nat) (c : List Nat) :
    digitsVal base (List.replicate z 0 ++ c).reverse = digitsVal base c.reverse := by
  rw [List.reverse_append, List.reverse_replicate, digitsVal_append,
    digitsVal_replicate_zero, Nat.mul_zero, Nat.add_zero]

theorem mapOption_replicate {f : α → Option β} {a : α} {b : β} (h : f a = some b)
    (z : Nat) : mapOption f (List.replicate z a) = some (List.replicate z b) := by
  induction z with
  | zero => rfl
  | succ m ih => simp [List.replicate_succ, mapOption, h, ih]

theorem mapOption_map_eq {f : α → Option β} {g : β → α} {l : List β}
    (h : ∀ x ∈ l, f (g x) = some x) : mapOption f (l.map g) = some l := by
  induction l with
  | nil => rfl
  | cons x rest ih =>
    simp only [List.map_cons, mapOption, h x (List.mem_cons_self x rest),
      ih (fun y hy => h y (List.mem_cons_of_mem x hy))]

theorem head?_reverse_digits {base v : Nat} (hv : v ≠ 0) :
    ((Nat.digits base v).reverse).head? ≠ some 0 := by
  rw [List.head?_reverse,
    List.getLast?_eq_getLast _ (Nat.digits_ne_nil_iff_ne_zero.mpr hv)]
  intro h
  simp only [Option.some.injEq] at h
  exact Nat.getLast_digit_ne_zero base hv h

theorem natDigits_digitsVal_reverse {c : Bytes} (hchead : c.head? ≠ some 0)
    (hc256 : ∀ x ∈ c, x < 256) :
    (natDigits 256 (digitsVal 256 c.reverse)).reverse = c := by
  cases c with
  | nil => simp [natDigits, digitsF, digitsVal]
  | cons x cs =>
    have hx : x ≠ 0 := by simpa using hchead
    have hlast : ∀ hne : (x :: cs).reverse ≠ [],
        ((x :: cs).reverse).getLast hne ≠ 0 := by
      intro hne h0
      have h1 := List.getLast?_eq_getLast _ hne
      rw [List.getLast?_reverse, h0] at h1
      simp only [List.head?_cons, Option.some.injEq] at h1
      exact hx h1
    have hb : ∀ l ∈ (x :: cs).reverse, l < 256 :=
      fun l hl => hc256 l (List.mem_reverse.mp hl)
    rw [digitsVal_eq_ofDigits, natDigits_eq_digits (by omega),
      Nat.digits_ofDigits 256 (by omega) ((x :: cs).reverse) hb hlast,
      List.reverse_reverse]

theorem baseN_decode_encode {alph : Str} (hnd : alph.Nodup) (h2 : 2 ≤ alph.length)
    (z : Nat) {c : Bytes} (hchead : c.head? ≠ some 0) (hc256 : ∀ x ∈ c, x < 256) :
    baseNDecode alph (baseNEncode alph (List.replicate z 0 ++ c))
      = some (List.replicate z 0 ++ c) := by
  have hzb : countLeadZeros (List.replicate z 0 ++ c) = z :=
    countLeadZeros_replicate_append hchead z
  have henc : baseNEncode alph (List.replicate z 0 ++ c)
      = List.replicate z (nthD alph 0)
        ++ (natDigits alph.length (digitsVal 256 c.reverse)).reverse.map (nthD alph) := by
    rw [baseNEncode]
    rw [hzb, digitsVal_reverse_replicate_append]
  have hds_lt : ∀ d ∈ natDigits alph.length (digitsVal 256 c.reverse),
      d < alph.length := by
    rw [natDigits_eq_digits h2]
    exact fun d hd => Nat.digits_lt_base (by omega) hd
  have hmap : mapOption (charIndex alph) (baseNEncode alph (List.replicate z 0 ++ c))
      = some (List.replicate z 0
          ++ (natDigits alph.length (digitsVal 256 c.reverse)).reverse) := by
    rw [henc]
    apply mapOption_append
    · exact mapOption_replicate (charIndex_nthD hnd (by omega)) z
    · exact mapOption_map_eq
        (fun d hd => charIndex_nthD hnd (hds_lt d (List.mem_reverse.mp hd)))
  have hdsrev_head :
      ((natDigits alph.length (digitsVal 256 c.reverse)).reverse).head? ≠ some 0 := by
    by_cases hv0 : digitsVal 256 c.reverse = 0
    · rw [hv0]
      simp [natDigits, digitsF]
    · rw [natDigits_eq_digits h2]
      exact head?_reverse_digits hv0
  have hzc : countLeadZeros (List.replicate z 0
      ++ (natDigits alph.length (digitsVal 256 c.reverse)).reverse) = z :=
    countLeadZeros_replicate_append hdsrev_head z
  have hvback : digitsVal alph.length (List.replicate z 0
      ++ (natDigits alph.length (digitsVal 256 c.reverse)).reverse).reverse
      = digitsVal 256 c.reverse := by
    rw [digitsVal_reverse_replicate_append, List.reverse_reverse,
      natDigits_eq_digits h2, digitsVal_eq_ofDigits, Nat.ofDigits_digits]
  rw [baseNDecode, hmap]
  simp only [hzc, hvback, natDigits_digitsVal_reverse hchead hc256]

theorem baseN_round_trip {alph : Str} (hnd : alph.Nodup) (h2 : 2 ≤ alph.length)
    {b : Bytes} (h256 : ∀ x ∈ b, x < 256) :
    baseNDecode alph (baseNEncode alph b) = some b := by
  rw [show b = List.replicate (countLeadZeros b) 0 ++ b.drop (countLeadZeros b) from
    countLeadZeros_decomp b]
  exact baseN_decode_encode hnd h2 _ (countLeadZeros_drop_head b)
    (fun x hx => h256 x (List.drop_subset _ b hx))

theorem readOptWith_encOptWith {f : α → List Nat}
    {rd : List Nat → Option (α × List Nat)}
    (h : ∀ a r, rd (f a ++ r) = some (a, r)) (x : Option α) (r : List Nat) :
    readOptWith rd (encOptWith f x ++ r) = some (x, r) := by
  cases x with
  | none => simp [encOptWith, readOptWith]
  | some a => simp only [encOptWith, List.cons_append, readOptWith, h a r]

theorem readNVars_flatCat (l : List Nat) (r : List Nat) :
    readNVars l.length (flatCat (l.map natToVar) ++ r) = some (l, r) := by
  induction l generalizing r with
  | nil => simp [flatCat, readNVars]
  | cons n tl ih =>
    have hassoc : flatCat ((n :: tl).map natToVar) ++ r
        = natToVar n ++ (flatCat (tl.map natToVar) ++ r) := by
      simp [flatCat, List.append_assoc]
    rw [List.length_cons, hassoc]
    simp only [readNVars, readVar_natToVar, ih]

theorem readBytes_encBytes (l : List Nat) (r : List Nat) :
    readBytes (encBytes l ++ r) = some (l, r) := by
  rw [encBytes, List.append_assoc]
  simp only [readBytes, readVar_natToVar, readNVars_flatCat]

theorem readStr_encStr (s : Str) (r : List Nat) :
    readStr (encStr s ++ r) = some (s, r) := by
  rw [encStr]
  simp only [readStr, readBytes_encBytes]
  simp [List.map_map, Function.comp_def, Char.ofNat_toNat]

theorem kindOfNat_kindToNat (k : LinkKind) : kindOfNat (kindToNat k) = some k := by
  cases k <;> rfl

theorem groupTypeOfNat_groupTypeToNat (t : GroupType) :
    groupTypeOfNat (groupTypeToNat t) = some t := by
  cases t <;> rfl

theorem readGroup_encGroup (g : Group) (r : List Nat) :
    readGroup (encGroup g ++ r) = some (g, r) := by
  rw [encGroup]
  simp only [List.append_assoc]
  simp only [readGroup, readOptWith_encOptWith readBytes_encBytes,
    readVar_natToVar, groupTypeOfNat_groupTypeToNat]

theorem readBertyID_encBertyID (id : BertyID) (r : List Nat) :
    readBertyID (encBertyID id ++ r) = some (id, r) := by
  rw [encBertyID]
  simp only [List.append_assoc]
  simp only [readBertyID, readOptWith_encOptWith readBytes_encBytes, readStr_encStr]

theorem readBertyGroup_encBertyGroup (bg : BertyGroup) (r : List Nat) :
    readBertyGroup (encBertyGroup bg ++ r) = some (bg, r) := by
  rw [encBertyGroup]
  simp only [List.append_assoc]
  simp only [readBertyGroup, readOptWith_encOptWith readGroup_encGroup, readStr_encStr]

theorem protoUnmarshal_protoMarshal (l : BertyLink) :
    protoUnmarshal (protoMarshal l) = some l := by
  have h : protoMarshal l
      = natToVar (kindToNat l.Kind) ++ (encOptWith encBertyID l.BertyID
        ++ (encOptWith encBertyGroup l.BertyGroup ++ [])) := by
    rw [protoMarshal]
    simp [List.append_assoc]
  rw [h]
  simp only [protoUnmarshal, readVar_natToVar, kindOfNat_kindToNat,
    readOptWith_encOptWith readBertyID_encBertyID,
    readOptWith_encOptWith readBertyGroup_encBertyGroup, if_pos rfl, if_true]

theorem flatCat_lt_256 {ls : List (List Nat)} (h : ∀ l ∈ ls, ∀ x ∈ l, x < 256) :
    ∀ x ∈ flatCat ls, x < 256 := by
  induction ls with
  | nil => simp [flatCat]
  | cons l rest ih =>
    intro x hx
    rw [flatCat, List.mem_append] at hx
    rcases hx with hx | hx
    · exact h l (List.mem_cons_self _ _) x hx
    · exact ih (fun l' hl' => h l' (List.mem_cons_of_mem _ hl')) x hx

theorem append_lt_256 {a b : List Nat} (ha : ∀ x ∈ a, x < 256)
    (hb : ∀ x ∈ b, x < 256) : ∀ x ∈ a ++ b, x < 256 := by
  intro x hx
  rw [List.mem_append] at hx
  exact hx.elim (ha x) (hb x)

theorem encBytes_lt_256 (l : List Nat) : ∀ x ∈ encBytes l, x < 256 := by
  apply append_lt_256 (natToVar_lt_256 _)
  apply flatCat_lt_256
  intro l' hl'
  rw [List.mem_map] at hl'
  obtain ⟨n, _, rfl⟩ := hl'
  exact natToVar_lt_256 n

theorem encOptWith_lt_256 {f : α → List Nat} (hf : ∀ a, ∀ x ∈ f a, x < 256)
    (o : Option α) : ∀ x ∈ encOptWith f o, x < 256 := by
  cases o with
  | none => simp [encOptWith]
  | some a =>
    intro x hx
    rw [encOptWith, List.mem_cons] at hx
    rcases hx with rfl | hx
    · omega
    · exact hf a x hx

theorem encStr_lt_256 (s : Str) : ∀ x ∈ encStr s, x < 256 :=
  encBytes_lt_256 _

theorem encGroup_lt_256 (g : Group) : ∀ x ∈ encGroup g, x < 256 := by
  rw [encGroup]
  exact append_lt_256 (append_lt_256 (append_lt_256 (append_lt_256
    (encOptWith_lt_256 encBytes_lt_256 _) (encOptWith_lt_256 encBytes_lt_256 _))
    (encOptWith_lt_256 encBytes_lt_256 _)) (natToVar_lt_256 _))
    (encOptWith_lt_256 encBytes_lt_256 _)

theorem encBertyID_lt_256 (id : BertyID) : ∀ x ∈ encBertyID id, x < 256 := by
  rw [encBertyID]
  exact append_lt_256 (append_lt_256 (encOptWith_lt_256 encBytes_lt_256 _)
    (encOptWith_lt_256 encBytes_lt_256 _)) (encStr_lt_256 _)

theorem encBertyGroup_lt_256 (bg : BertyGroup) : ∀ x ∈ encBertyGroup bg, x < 256 := by
  rw [encBertyGroup]
  exact append_lt_256 (encOptWith_lt_256 encGroup_lt_256 _) (encStr_lt_256 _)

theorem protoMarshal_lt_256 (l : BertyLink) : ∀ x ∈ protoMarshal l, x < 256 := by
  rw [protoMarshal]
  exact append_lt_256 (append_lt_256 (natToVar_lt_256 _)
    (encOptWith_lt_256 encBertyID_lt_256 _)) (encOptWith_lt_256 encBertyGroup_lt_256 _)

/-! ### Lemmas about the escaping model -/

theorem hexParseAcc_append (acc : Nat) (s t : Str) :
    hexParseAcc acc (s ++ t)
      = match hexParseAcc acc s with
        | none => none
        | some a => hexParseAcc a t := by
  induction s generalizing acc with
  | nil => simp [hexParseAcc]
  | cons c rest ih =>
    simp only [List.cons_append, hexParseAcc]
    cases hexVal c with
    | none => rfl
    | some d => exact ih (acc * 16 + d)

theorem hexVal_hexDigitChar : ∀ d, d < 16 → hexVal (hexDigitChar d) = some d := by
  decide

theorem hexFixed_length : ∀ k n, (hexFixed k n).length = k := by
  intro k
  induction k with
  | zero => intro n; rfl
  | succ m ih => intro n; simp [hexFixed, ih]

theorem hexParseAcc_hexFixed :
    ∀ k n acc, n < 16 ^ k → hexParseAcc acc (hexFixed k n) = some (acc * 16 ^ k + n) := by
  intro k
  induction k with
  | zero =>
    intro n acc hn
    interval_cases n
    simp [hexFixed, hexParseAcc]
  | succ m ih =>
    intro n acc hn
    have hdiv : n / 16 < 16 ^ m := by
      rw [Nat.div_lt_iff_lt_mul (by omega : 0 < 16)]
      calc n < 16 ^ (m + 1) := hn
        _ = 16 ^ m * 16 := by rw [pow_succ]
    rw [hexFixed, hexParseAcc_append, ih (n / 16) acc hdiv]
    simp only [hexParseAcc, hexVal_hexDigitChar (n % 16) (Nat.mod_lt n (by omega))]
    have harith : (acc * 16 ^ m + n / 16) * 16 + n % 16 = acc * 16 ^ (m + 1) + n := by
      calc (acc * 16 ^ m + n / 16) * 16 + n % 16
          = acc * (16 ^ m * 16) + (16 * (n / 16) + n % 16) := by ring
        _ = acc * 16 ^ (m + 1) + n := by rw [Nat.div_add_mod, pow_succ]
    rw [harith]

theorem char_toNat_lt (c : Char) : c.toNat < 16 ^ 6 := by
  have hv := c.valid
  simp only [UInt32.isValidChar, Nat.isValidChar] at hv
  have h16 : (16 : Nat) ^ 6 = 16777216 := by norm_num
  rcases hv with h | ⟨h1, h2⟩ <;> simp only [Char.toNat] <;> omega

theorem exists_six {l : Str} (h : l.length = 6) :
    ∃ a b c d e f, l = [a, b, c, d, e, f] := by
  rcases l with _ | ⟨a, _ | ⟨b, _ | ⟨c, _ | ⟨d, _ | ⟨e, _ | ⟨f, _ | ⟨g, t⟩⟩⟩⟩⟩⟩⟩ <;>
    simp_all

theorem isUnreservedChar_ne {c : Char} (h : isUnreservedChar c = true) :
    c ≠ '%' ∧ c ≠ '+' ∧ c ≠ '#' ∧ c ≠ '/' ∧ c ≠ '&' ∧ c ≠ '=' ∧ c ≠ ' ' := by
  refine ⟨?_, ?_, ?_, ?_, ?_, ?_, ?_⟩ <;> rintro rfl <;> exact absurd h (by decide)

theorem unescape_queryEscape (s : Str) : unescape (queryEscape s) = some s := by
  induction s with
  | nil => rfl
  | cons c rest ih =>
    have hq : queryEscape (c :: rest) = queryEscapeChar c ++ queryEscape rest := by
      simp [queryEscape, flatCat]
    rw [hq]
    by_cases hu : isUnreservedChar c = true
    · obtain ⟨h1, h2, _⟩ := isUnreservedChar_ne hu
      rw [queryEscapeChar, if_pos hu]
      show unescape (c :: queryEscape rest) = some (c :: rest)
      rw [unescape.eq_def]
      simp [h1, h2, ih]
    · by_cases hsp : c = ' '
      · subst hsp
        rw [queryEscapeChar, if_neg hu, if_pos rfl]
        show unescape ('+' :: queryEscape rest) = some (' ' :: rest)
        have hne : ('+' : Char) ≠ '%' := by decide
        rw [unescape.eq_def]
        simp [hne, ih]
      · rw [queryEscapeChar, if_neg hu, if_neg hsp]
        obtain ⟨a, b, c2, d, e, f, hsix⟩ := exists_six (hexFixed_length 6 c.toNat)
        rw [hsix]
        show unescape ('%' :: a :: b :: c2 :: d :: e :: f :: queryEscape rest)
          = some (c :: rest)
        have hparse : hexParseAcc 0 [a, b, c2, d, e, f] = some c.toNat := by
          rw [← hsix, hexParseAcc_hexFixed 6 c.toNat 0 (char_toNat_lt c)]
          simp
        rw [unescape.eq_def]
        simp [hparse, ih, Char.ofNat_toNat]

theorem mem_flatCat {x : α} {ls : List (List α)} (h : x ∈ flatCat ls) :
    ∃ l ∈ ls, x ∈ l := by
  induction ls with
  | nil => simp [flatCat] at h
  | cons l rest ih =>
    rw [flatCat, List.mem_append] at h
    rcases h with h | h
    · exact ⟨l, List.mem_cons_self _ _, h⟩
    · obtain ⟨l', hl', hx⟩ := ih h
      exact ⟨l', List.mem_cons_of_mem _ hl', hx⟩

theorem hexFixed_mem : ∀ k n x, x ∈ hexFixed k n → x ∈ ucHexChars := by
  intro k
  induction k with
  | zero => intro n x hx; simp [hexFixed] at hx
  | succ m ih =>
    intro n x hx
    rw [hexFixed, List.mem_append] at hx
    rcases hx with hx | hx
    · exact ih _ x hx
    · rw [List.mem_singleton] at hx
      subst hx
      exact nthD_mem (by exact Nat.mod_lt n (by omega))

theorem queryEscapeChar_safe (c : Char) :
    ∀ x ∈ queryEscapeChar c, x ≠ '#' ∧ x ≠ '/' ∧ x ≠ '&' ∧ x ≠ '=' := by
  intro x hx
  rw [queryEscapeChar] at hx
  by_cases hu : isUnreservedChar c = true
  · rw [if_pos hu, List.mem_singleton] at hx
    subst hx
    obtain ⟨_, _, h3, h4, h5, h6, _⟩ := isUnreservedChar_ne hu
    exact ⟨h3, h4, h5, h6⟩
  · rw [if_neg hu] at hx
    by_cases hsp : c = ' '
    · rw [if_pos hsp, List.mem_singleton] at hx
      subst hx
      refine ⟨by decide, by decide, by decide, by decide⟩
    · rw [if_neg hsp, List.mem_cons] at hx
      rcases hx with rfl | hx
      · refine ⟨by decide, by decide, by decide, by decide⟩
      · have hm : x ∈ ucHexChars := hexFixed_mem _ _ _ hx
        have : ∀ y ∈ ucHexChars, y ≠ '#' ∧ y ≠ '/' ∧ y ≠ '&' ∧ y ≠ '=' := by decide
        exact this x hm

theorem queryEscape_safe (s : Str) :
    ∀ x ∈ queryEscape s, x ≠ '#' ∧ x ≠ '/' ∧ x ≠ '&' ∧ x ≠ '=' := by
  intro x hx
  rw [queryEscape] at hx
  obtain ⟨l, hl, hxl⟩ := mem_flatCat hx
  rw [List.mem_map] at hl
  obtain ⟨c, _, rfl⟩ := hl
  exact queryEscapeChar_safe c x hxl

theorem takeWhile_append_stop (p : Char → Bool) (a : Str) (y : Char) (b : Str)
    (ha : ∀ x ∈ a, p x = true) (hy : p y = false) :
    (a ++ y :: b).takeWhile p = a ∧ (a ++ y :: b).dropWhile p = y :: b := by
  induction a with
  | nil => simp [List.takeWhile_cons, List.dropWhile_cons, hy]
  | cons x a' ih =>
    have hx : p x = true := ha x (List.mem_cons_self _ _)
    have ih2 := ih (fun z hz => ha z (List.mem_cons_of_mem _ hz))
    simp [List.cons_append, List.takeWhile_cons, List.dropWhile_cons, hx,
      ih2.1, ih2.2]

theorem parseSegs_single {seg k v : Str}
    (hk : unescape (seg.takeWhile (fun c => c != '=')) = some k)
    (hv : unescape ((seg.dropWhile (fun c => c != '=')).drop 1) = some v)
    (hne : seg ≠ []) : parseSegs [seg] = some [(k, v)] := by
  cases seg with
  | nil => exact absurd rfl hne
  | cons c t => simp only [parseSegs, hk, hv, if_neg (List.cons_ne_nil c t)]

theorem parseQuery_name (dn : Str) :
    parseQuery (queryEscape "name".toList ++ '=' :: queryEscape dn)
      = some [("name".toList, dn)] := by
  have hqname : queryEscape "name".toList = "name".toList := by decide
  rw [hqname]
  have hsafe := queryEscape_safe dn
  have hamp : '&' ∉ "name".toList ++ '=' :: queryEscape dn := by
    intro hmem
    rw [List.mem_append, List.mem_cons] at hmem
    rcases hmem with h | h | h
    · exact absurd h (by decide)
    · exact absurd h.symm (by decide)
    · exact (hsafe '&' h).2.2.1 rfl
  rw [parseQuery, splitOnChar_of_not_mem hamp]
  have htw := takeWhile_append_stop (fun c => c != '=') "name".toList '='
    (queryEscape dn) (by decide) (by decide)
  have hname_unesc : unescape "name".toList = some "name".toList := by decide
  apply parseSegs_single
  · rw [htw.1, hname_unesc]
  · rw [htw.2, List.drop_succ_cons, List.drop_zero, unescape_queryEscape]
  · simp

theorem internal_pref_internal (rest : Str) :
    strHasPref (toLowerStr (LinkInternalPref ++ rest)) (toLowerStr LinkInternalPref)
      = true := by
  rw [toLowerStr_append]
  exact strHasPref_append_self _ _

theorem web_pref_web (rest : Str) :
    strHasPref (toLowerStr (LinkWebPref ++ rest)) (toLowerStr LinkWebPref) = true := by
  rw [toLowerStr_append]
  exact strHasPref_append_self _ _

theorem web_not_internal (rest : Str) :
    strHasPref (toLowerStr (LinkWebPref ++ rest)) (toLowerStr LinkInternalPref)
      = false := rfl

theorem unmarshal_internal_ok {bytes : Bytes} (h256 : ∀ x ∈ bytes, x < 256)
    {link : BertyLink} (hp : protoUnmarshal bytes = some link) :
    UnmarshalLink (LinkInternalPref ++ "PB/".toList ++ baseNEncode qrAlphabetStr bytes)
      = .ok link := by
  have hqnd : qrAlphabetStr.Nodup := by decide
  have hq2 : 2 ≤ qrAlphabetStr.length := by decide
  rw [List.append_assoc, UnmarshalLink]
  have hne : LinkInternalPref ++ ("PB/".toList ++ baseNEncode qrAlphabetStr bytes)
      ≠ [] := by simp [LinkInternalPref]
  rw [if_neg hne, internal_pref_internal, if_pos rfl]
  simp only [drop_len_append]
  simp only [show "PB/".toList ++ baseNEncode qrAlphabetStr bytes
      = "PB".toList ++ '/' :: baseNEncode qrAlphabetStr bytes from rfl,
    splitOnChar_append_cons (show '/' ∉ "PB".toList from by decide)]
  have hlen : ¬ (("PB".toList
      :: splitOnChar '/' (baseNEncode qrAlphabetStr bytes)).length < 2) := by
    have hpos := List.length_pos.mpr
      (splitOnChar_ne_nil '/' (baseNEncode qrAlphabetStr bytes))
    simp only [List.length_cons]
    omega
  rw [if_neg hlen]
  simp only [List.headD_cons, List.drop_succ_cons, List.drop_zero]
  rw [show toLowerStr "PB".toList = "pb".toList from by decide, if_pos rfl]
  simp only [joinChar_splitOnChar, baseN_round_trip hqnd hq2 h256, hp]

/-- C1: for every record accepted by the validator, decoding the internal form
produced by `Marshal` yields a record deeply equal to the input: whenever
`Marshal` succeeds with internal string `i`, `UnmarshalLink i` returns exactly
the original record (kind, both sub-records and display names included). -/
theorem c1_internal_round_trip (l : BertyLink) (i w : Str)
    (h : Marshal (some l) = .ret i w none) : UnmarshalLink i = .ok l := by
  rw [Marshal] at h
  by_cases hk : l.Kind = .UnknownKind
  · rw [if_pos hk] at h
    exact absurd h (by simp)
  · rw [if_neg hk] at h
    cases hv : IsValid (some l) with
    | nilPanic =>
      simp only [hv] at h
      exact absurd h (by simp)
    | err e =>
      simp only [hv, MarshalResult.ret.injEq] at h
      exact absurd h.2.2 (by simp)
    | ok =>
      simp only [hv] at h
      cases hkind : l.Kind with
      | UnknownKind => exact absurd hkind hk
      | ContactInviteV1Kind =>
        simp only [hkind] at h
        cases hid : l.BertyID with
        | none =>
          simp only [hid] at h
          exact absurd h (by simp)
        | some id =>
          simp only [hid, finishMarshal, MarshalResult.ret.injEq] at h
          obtain ⟨hi, -, -⟩ := h
          rw [← hi]
          exact unmarshal_internal_ok (protoMarshal_lt_256 l)
            (protoUnmarshal_protoMarshal l)
      | GroupV1Kind =>
        simp only [hkind] at h
        cases hbg : l.BertyGroup with
        | none =>
          simp only [hbg] at h
          exact absurd h (by simp)
        | some bg =>
          simp only [hbg] at h
          cases hg : bg.Group with
          | none =>
            simp only [hg] at h
            exact absurd h (by simp)
          | some g =>
            simp only [hg, finishMarshal, MarshalResult.ret.injEq] at h
            obtain ⟨hi, -, -⟩ := h
            rw [← hi]
            exact unmarshal_internal_ok (protoMarshal_lt_256 l)
              (protoUnmarshal_protoMarshal l)

/-- Evaluation of C1 on a concrete valid contact record. -/
theorem c1_internal_round_trip_witness : UnmarshalLink c1URI = Except.ok c1Rec :=
  c1_internal_round_trip c1Rec c1URI c1Web rfl

/-- Characters of the name query string avoid the URI separators. -/
theorem mem_nameQuery {dn : Str} {x : Char}
    (h : x ∈ queryEscape "name".toList ++ '=' :: queryEscape dn) :
    x ≠ '#' ∧ x ≠ '/' := by
  rw [List.mem_append, List.mem_cons] at h
  rcases h with h | h | h
  · have hs := queryEscape_safe _ x h
    exact ⟨hs.1, hs.2.1⟩
  · subst h
    exact ⟨by decide, by decide⟩
  · have hs := queryEscape_safe dn x h
    exact ⟨hs.1, hs.2.1⟩

/-- Web-form decoding of a well-formed fragment with no human query part. -/
theorem unmarshal_web_core (tag : Str) (hh : '#' ∉ tag)
    (hs : '/' ∉ tag) {bytes : Bytes} (h256 : ∀ x ∈ bytes, x < 256)
    {link0 : BertyLink} (hp : protoUnmarshal bytes = some link0) :
    UnmarshalLink (LinkWebPref ++ (tag ++ '/' :: baseNEncode base58Alphabet bytes))
      = webKindMerge tag link0 [] := by
  have hb58nd : base58Alphabet.Nodup := by decide
  have hb582 : 2 ≤ base58Alphabet.length := by decide
  have hmem := baseNEncode_mem_alph hb582 bytes
  have hEslash : '/' ∉ baseNEncode base58Alphabet bytes :=
    fun hm => absurd (hmem _ hm) (by decide)
  have hEhash : '#' ∉ baseNEncode base58Alphabet bytes :=
    fun hm => absurd (hmem _ hm) (by decide)
  rw [UnmarshalLink]
  have hne0 : LinkWebPref ++ (tag ++ '/' :: baseNEncode base58Alphabet bytes)
      ≠ [] := by simp [LinkWebPref]
  have hni : ¬ (strHasPref
      (toLowerStr (LinkWebPref ++ (tag ++ '/' :: baseNEncode base58Alphabet bytes)))
      (toLowerStr LinkInternalPref) = true) := by
    rw [web_not_internal]
    simp
  rw [if_neg hne0, if_neg hni, web_pref_web, if_pos rfl]
  rw [show LinkWebPref ++ (tag ++ '/' :: baseNEncode base58Alphabet bytes)
      = "https://berty.tech/id".toList
        ++ '#' :: (tag ++ '/' :: baseNEncode base58Alphabet bytes) from rfl]
  rw [splitOnChar_append_cons (show '#' ∉ "https://berty.tech/id".toList from by decide)]
  have hpath_nohash : '#' ∉ tag ++ '/' :: baseNEncode base58Alphabet bytes := by
    intro hx
    rw [List.mem_append, List.mem_cons] at hx
    rcases hx with hx | hx | hx
    · exact hh hx
    · exact absurd hx (by decide)
    · exact hEhash hx
  rw [splitOnChar_of_not_mem hpath_nohash]
  simp only [List.drop_succ_cons, List.drop_zero, joinChar]
  have hfragne : tag ++ '/' :: baseNEncode base58Alphabet bytes ≠ [] := by simp
  rw [if_neg hfragne]
  rw [splitOnChar_append_cons hs, splitOnChar_of_not_mem hEslash]
  rw [if_neg (show ¬ (([tag, baseNEncode base58Alphabet bytes].length < 2)) from
    by simp)]
  simp only [List.getD_cons_succ, List.getD_cons_zero, List.headD_cons,
    baseN_round_trip hb58nd hb582 h256, hp]
  rw [if_neg (show ¬ (2 < ([tag, baseNEncode base58Alphabet bytes]).length) from
    by simp)]

/-- Web-form decoding of a well-formed fragment carrying a name query part. -/
theorem unmarshal_web_core_q (tag : Str) (hh : '#' ∉ tag)
    (hs : '/' ∉ tag) {bytes : Bytes} (h256 : ∀ x ∈ bytes, x < 256)
    {link0 : BertyLink} (hp : protoUnmarshal bytes = some link0) (dn : Str) :
    UnmarshalLink (LinkWebPref ++ (tag ++ '/' :: (baseNEncode base58Alphabet bytes
        ++ '/' :: (queryEscape "name".toList ++ '=' :: queryEscape dn))))
      = webKindMerge tag link0 [("name".toList, dn)] := by
  have hb58nd : base58Alphabet.Nodup := by decide
  have hb582 : 2 ≤ base58Alphabet.length := by decide
  have hmem := baseNEncode_mem_alph hb582 bytes
  have hEslash : '/' ∉ baseNEncode base58Alphabet bytes :=
    fun hm => absurd (hmem _ hm) (by decide)
  have hEhash : '#' ∉ baseNEncode base58Alphabet bytes :=
    fun hm => absurd (hmem _ hm) (by decide)
  rw [UnmarshalLink]
  have hne0 : LinkWebPref ++ (tag ++ '/' :: (baseNEncode base58Alphabet bytes
      ++ '/' :: (queryEscape "name".toList ++ '=' :: queryEscape dn))) ≠ [] := by
    simp [LinkWebPref]
  have hni : ¬ (strHasPref
      (toLowerStr (LinkWebPref ++ (tag ++ '/' :: (baseNEncode base58Alphabet bytes
        ++ '/' :: (queryEscape "name".toList ++ '=' :: queryEscape dn)))))
      (toLowerStr LinkInternalPref) = true) := by
    rw [web_not_internal]
    simp
  rw [if_neg hne0, if_neg hni, web_pref_web, if_pos rfl]
  rw [show LinkWebPref ++ (tag ++ '/' :: (baseNEncode base58Alphabet bytes
        ++ '/' :: (queryEscape "name".toList ++ '=' :: queryEscape dn)))
      = "https://berty.tech/id".toList
        ++ '#' :: (tag ++ '/' :: (baseNEncode base58Alphabet bytes
          ++ '/' :: (queryEscape "name".toList ++ '=' :: queryEscape dn))) from rfl]
  rw [splitOnChar_append_cons (show '#' ∉ "https://berty.tech/id".toList from by decide)]
  have hpath_nohash : '#' ∉ tag ++ '/' :: (baseNEncode base58Alphabet bytes
      ++ '/' :: (queryEscape "name".toList ++ '=' :: queryEscape dn)) := by
    intro hx
    rw [List.mem_append, List.mem_cons, List.mem_append, List.mem_cons] at hx
    rcases hx with hx | hx | hx | hx | hx
    · exact hh hx
    · exact absurd hx (by decide)
    · exact hEhash hx
    · exact absurd hx (by decide)
    · exact (mem_nameQuery hx).1 rfl
  rw [splitOnChar_of_not_mem hpath_nohash]
  simp only [List.drop_succ_cons, List.drop_zero, joinChar]
  have hfragne : tag ++ '/' :: (baseNEncode base58Alphabet bytes
      ++ '/' :: (queryEscape "name".toList ++ '=' :: queryEscape dn)) ≠ [] := by simp
  rw [if_neg hfragne]
  have hqslash : '/' ∉ queryEscape "name".toList ++ '=' :: queryEscape dn :=
    fun hm => (mem_nameQuery hm).2 rfl
  rw [splitOnChar_append_cons hs, splitOnChar_append_cons hEslash,
    splitOnChar_of_not_mem hqslash]
  rw [if_neg (show ¬ (([tag, baseNEncode base58Alphabet bytes,
      queryEscape "name".toList ++ '=' :: queryEscape dn].length < 2)) from by simp)]
  simp only [List.getD_cons_succ, List.getD_cons_zero, List.headD_cons,
    baseN_round_trip hb58nd hb582 h256, hp]
  rw [if_pos (show 2 < ([tag, baseNEncode base58Alphabet bytes,
      queryEscape "name".toList ++ '=' :: queryEscape dn]).length from by simp)]
  simp only [List.drop_succ_cons, List.drop_zero, joinChar, parseQuery_name]

/-- Shape of the web URL produced by marshalling a contact record: prefix,
`contact` tag, base58 blob of the projected machine record, and the escaped
display name as the only human query parameter (absent when empty). -/
theorem marshal_contact_web (l : BertyLink) (id : BertyID) (i w : Str)
    (hk : l.Kind = .ContactInviteV1Kind) (hid : l.BertyID = some id)
    (h : Marshal (some l) = .ret i w none) :
    w = LinkWebPref ++ (if id.DisplayName = []
      then "contact".toList
        ++ '/' :: baseNEncode base58Alphabet (protoMarshal (contactMachine id))
      else ("contact".toList
        ++ '/' :: baseNEncode base58Alphabet (protoMarshal (contactMachine id)))
        ++ '/' :: (queryEscape "name".toList ++ '=' :: queryEscape id.DisplayName)) := by
  rw [Marshal] at h
  rw [if_neg (by rw [hk]; intro hab; exact absurd hab (by decide))] at h
  cases hv : IsValid (some l) with
  | nilPanic =>
    simp only [hv] at h
    exact absurd h (by simp)
  | err e =>
    simp only [hv, MarshalResult.ret.injEq] at h
    exact absurd h.2.2 (by simp)
  | ok =>
    simp only [hv, hk, hid, finishMarshal, MarshalResult.ret.injEq] at h
    obtain ⟨-, hw, -⟩ := h
    rw [← hw]
    by_cases hdn : id.DisplayName = []
    · simp only [hdn, contactMachine]
      simp
    · simp only [contactMachine]
      rw [if_neg hdn, if_pos (by simp [hdn] : (if id.DisplayName ≠ [] then
          [("name".toList, id.DisplayName)] else []) ≠ [])]
      rw [if_pos (by simp [hdn] : id.DisplayName ≠ [])]
      rfl

/-- C8: for every valid `ContactInviteV1` record, the base58 blob of the web
form serializes exactly the reduced machine record holding only the account
public key and the public rendezvous seed; the display name is not in the
blob (it is `[]` in the serialized record) regardless of its value in the
input, travelling instead as the `name` query parameter. -/
theorem c8_web_blob_fields (l : BertyLink) (id : BertyID) (i w : Str)
    (hk : l.Kind = .ContactInviteV1Kind) (hid : l.BertyID = some id)
    (h : Marshal (some l) = .ret i w none) :
    w = LinkWebPref ++ (if id.DisplayName = []
      then "contact".toList ++ '/' :: baseNEncode base58Alphabet (protoMarshal
        ⟨.UnknownKind, some ⟨id.PublicRendezvousSeed, id.AccountPK, []⟩, none⟩)
      else ("contact".toList ++ '/' :: baseNEncode base58Alphabet (protoMarshal
        ⟨.UnknownKind, some ⟨id.PublicRendezvousSeed, id.AccountPK, []⟩, none⟩))
        ++ '/' :: (queryEscape "name".toList ++ '=' :: queryEscape id.DisplayName)) :=
  marshal_contact_web l id i w hk hid h

/-- Evaluation of C8 on a concrete valid contact record. -/
theorem c8_web_blob_fields_witness :
    c8Web = LinkWebPref ++ (if c8ID.DisplayName = []
      then "contact".toList ++ '/' :: baseNEncode base58Alphabet (protoMarshal
        ⟨.UnknownKind, some ⟨c8ID.PublicRendezvousSeed, c8ID.AccountPK, []⟩, none⟩)
      else ("contact".toList ++ '/' :: baseNEncode base58Alphabet (protoMarshal
        ⟨.UnknownKind, some ⟨c8ID.PublicRendezvousSeed, c8ID.AccountPK, []⟩, none⟩))
        ++ '/' :: (queryEscape "name".toList ++ '=' :: queryEscape c8ID.DisplayName)) :=
  c8_web_blob_fields c8Rec c8ID c8URI c8Web rfl rfl rfl

/-- C2: for every valid `ContactInviteV1` record, decoding the web form
produced by `Marshal` yields a record whose account public key, public
rendezvous seed and display name all equal the input's (the display name
round-trips through the human `name` query parameter, not the binary blob). -/
theorem c2_web_round_trip (l : BertyLink) (id : BertyID) (i w : Str)
    (hk : l.Kind = .ContactInviteV1Kind) (hid : l.BertyID = some id)
    (h : Marshal (some l) = .ret i w none) :
    UnmarshalLink w = .ok ⟨.ContactInviteV1Kind,
      some ⟨id.PublicRendezvousSeed, id.AccountPK, id.DisplayName⟩, none⟩ := by
  rw [marshal_contact_web l id i w hk hid h]
  by_cases hdn : id.DisplayName = []
  · rw [if_pos hdn]
    rw [unmarshal_web_core "contact".toList (by decide) (by decide)
      (protoMarshal_lt_256 _) (protoUnmarshal_protoMarshal (contactMachine id))]
    simp [webKindMerge, contactMachine, valuesGet, hdn]
  · rw [if_neg hdn]
    rw [show ("contact".toList ++ '/' :: baseNEncode base58Alphabet
          (protoMarshal (contactMachine id)))
        ++ '/' :: (queryEscape "name".toList ++ '=' :: queryEscape id.DisplayName)
      = "contact".toList ++ '/' :: (baseNEncode base58Alphabet
          (protoMarshal (contactMachine id))
        ++ '/' :: (queryEscape "name".toList ++ '=' :: queryEscape id.DisplayName))
      from by simp [List.append_assoc]]
    rw [unmarshal_web_core_q "contact".toList (by decide) (by decide)
      (protoMarshal_lt_256 _) (protoUnmarshal_protoMarshal (contactMachine id))
      id.DisplayName]
    simp [webKindMerge, contactMachine, valuesGet, hdn]

/-- Evaluation of C2 on a concrete valid contact record. -/
theorem c2_web_round_trip_witness :
    UnmarshalLink c2Web = .ok ⟨.ContactInviteV1Kind,
      some ⟨c2ID.PublicRendezvousSeed, c2ID.AccountPK, c2ID.DisplayName⟩, none⟩ :=
  c2_web_round_trip c2Rec c2ID c2URI c2Web rfl rfl rfl

/-- The merge step never reports a missing input. -/
theorem webKindMerge_ne_missing (tag : Str) (link : BertyLink) (human : UrlValues) :
    webKindMerge tag link human ≠ .error .ErrMissingInput := by
  rw [webKindMerge]
  split_ifs <;> simp

/-- C3 counterexample: the internal-form alphabet does not have 43 characters
(the three removals from the 45-character QR set leave 42, not 43). -/
theorem c3_alphabet_counterexample : ¬ qrAlphabetStr.length = 43 := by decide

/-- C3 (amended): the internal-form base encoder's alphabet is exactly the
45-character QR alphanumeric set minus space, percent and plus — which is 42
characters, all distinct, so the codec operates in base 42. -/
theorem c3_alphabet_amended :
    qrAlphabetStr.length = 42 ∧ qrAlphabetStr.Nodup
    ∧ qrAlphabetStr.Perm (qrAlphanumeric45.filter
        (fun c => !(c == ' ' || c == '%' || c == '+'))) := by
  refine ⟨by decide, by decide, ?_⟩
  decide

/-- C4: on a `GroupV1` record whose `BertyGroup` is present but whose inner
group descriptor is nil, `IsValid` (and hence `Marshal`) hits a nil-pointer
dereference (`link.BertyGroup.Group.GroupType`) instead of returning
`ErrMissingInput`. -/
theorem c4_validator_nil_group_panic :
    IsValid (some ⟨.GroupV1Kind, none, some ⟨none, []⟩⟩) = .nilPanic
    ∧ Marshal (some ⟨.GroupV1Kind, none, some ⟨none, []⟩⟩) = .nilPanic := by
  exact ⟨rfl, rfl⟩

/-- C5 counterexample: a `ContactInviteV1` record with a present, zero-length
account public key is accepted by the validator (the Go code checks the slice
for nil, not for emptiness), and a record of kind `Unknown` is rejected with
`ErrInvalidInput`, not `ErrMissingInput`. -/
theorem c5_validator_counterexample :
    IsValid (some ⟨.ContactInviteV1Kind, some ⟨some [7], some [], []⟩, none⟩) = .ok
    ∧ IsValid (some ⟨.UnknownKind, none, none⟩) = .err .ErrInvalidInput := by
  exact ⟨rfl, rfl⟩

/-- C5 (amended): the validator rejects a `ContactInviteV1` record whose
account public key is absent (nil) with `ErrMissingInput`; it rejects a null
record with `ErrMissingInput`; and it rejects a record of kind `Unknown` with
`ErrInvalidInput`. -/
theorem c5_validator_amended (l : BertyLink) (id : BertyID) :
    (l.Kind = .ContactInviteV1Kind → l.BertyID = some id → id.AccountPK = none →
      IsValid (some l) = .err .ErrMissingInput)
    ∧ IsValid none = .err .ErrMissingInput
    ∧ (l.Kind = .UnknownKind → IsValid (some l) = .err .ErrInvalidInput) := by
  refine ⟨?_, rfl, ?_⟩
  · intro hk hid hapk
    simp [IsValid, hk, hid, hapk]
  · intro hk
    simp [IsValid, hk]

/-- Evaluation of the amended C5 on concrete records. -/
theorem c5_validator_amended_witness :
    IsValid (some ⟨.ContactInviteV1Kind, some ⟨some [1], none, []⟩, none⟩)
      = .err .ErrMissingInput
    ∧ IsValid none = .err .ErrMissingInput
    ∧ IsValid (some ⟨.UnknownKind, none, none⟩) = .err .ErrInvalidInput :=
  ⟨(c5_validator_amended ⟨.ContactInviteV1Kind, some ⟨some [1], none, []⟩, none⟩
      ⟨some [1], none, []⟩).1 rfl rfl rfl,
   (c5_validator_amended ⟨.UnknownKind, none, none⟩ ⟨none, none, []⟩).2.1,
   (c5_validator_amended ⟨.UnknownKind, none, none⟩ ⟨none, none, []⟩).2.2 rfl⟩

/-- C6: a `GroupV1` record whose group type is anything other than the
multi-member type makes `Marshal` fail with `ErrInvalidInput`, returning empty
strings for both the internal and the web form. -/
theorem c6_marshal_invalid_group_type (l : BertyLink) (bg : BertyGroup) (g : Group)
    (hk : l.Kind = .GroupV1Kind) (hbg : l.BertyGroup = some bg)
    (hg : bg.Group = some g) (hne : g.GroupType ≠ .MultiMember) :
    Marshal (some l) = .ret [] [] (some .ErrInvalidInput) := by
  rw [Marshal]
  rw [if_neg (by rw [hk]; intro hab; exact absurd hab (by decide))]
  have hv : IsValid (some l) = .err .ErrInvalidInput := by
    simp [IsValid, hk, hbg, hg, hne]
  simp only [hv]

/-- Evaluation of C6 on a concrete non-multi-member group record. -/
theorem c6_marshal_invalid_group_type_witness :
    Marshal (some c6Rec) = .ret [] [] (some .ErrInvalidInput) :=
  c6_marshal_invalid_group_type c6Rec
    ⟨some ⟨some [1], some [2], some [3], .Account, some [4]⟩, "G".toList⟩
    ⟨some [1], some [2], some [3], .Account, some [4]⟩ rfl rfl rfl (by decide)

/-- C7: in web-form decoding, for any decoded blob record and human
parameters, the `name` parameter is copied into the sub-record's display name
exactly when the parameter is non-empty and the display name from the blob is
empty; otherwise (in particular when both are non-empty) the blob's display
name is kept unchanged.  This holds for both the `contact` and `group` tags. -/
theorem c7_web_merge_display_name (link : BertyLink) (human : UrlValues) :
    webKindMerge "contact".toList link human
      = .ok { link with
          Kind := .ContactInviteV1Kind
          BertyID := some (if valuesGet "name".toList human ≠ []
              ∧ (link.BertyID.getD ⟨none, none, []⟩).DisplayName = []
            then ⟨(link.BertyID.getD ⟨none, none, []⟩).PublicRendezvousSeed,
                (link.BertyID.getD ⟨none, none, []⟩).AccountPK,
                valuesGet "name".toList human⟩
            else link.BertyID.getD ⟨none, none, []⟩) }
    ∧ webKindMerge "group".toList link human
      = .ok { link with
          Kind := .GroupV1Kind
          BertyGroup := some (if valuesGet "name".toList human ≠ []
              ∧ (link.BertyGroup.getD ⟨none, []⟩).DisplayName = []
            then ⟨(link.BertyGroup.getD ⟨none, []⟩).Group,
                valuesGet "name".toList human⟩
            else link.BertyGroup.getD ⟨none, []⟩) } := by
  constructor
  · rw [webKindMerge, if_pos rfl]
  · rw [webKindMerge, if_neg (by decide), if_pos rfl]

/-- Any result of `UnmarshalLink` on a non-empty string is never
`ErrMissingInput`; conversely the empty string always yields it. -/
theorem unmarshalLink_missing_iff (uri : Str) :
    UnmarshalLink uri = .error .ErrMissingInput ↔ uri = [] := by
  constructor
  · intro h
    by_contra hne
    rw [UnmarshalLink, if_neg hne] at h
    repeat' (first
      | split at h
      | simp only [] at h)
    all_goals first
      | exact webKindMerge_ne_missing _ _ _ h
      | simp at h
  · rintro rfl
    rfl

/-- C9: the dispatcher returns `ErrMissingInput` exactly on the empty string,
and `ErrInvalidInput` on every non-empty string that matches neither the
internal prefix nor the web prefix case-insensitively. -/
theorem c9_dispatch (uri : Str) :
    (UnmarshalLink uri = .error .ErrMissingInput ↔ uri = [])
    ∧ (uri ≠ [] →
      strHasPref (toLowerStr uri) (toLowerStr LinkInternalPref) = false →
      strHasPref (toLowerStr uri) (toLowerStr LinkWebPref) = false →
      UnmarshalLink uri = .error .ErrInvalidInput) := by
  refine ⟨unmarshalLink_missing_iff uri, ?_⟩
  intro hne h1 h2
  rw [UnmarshalLink, if_neg hne]
  rw [if_neg (by rw [h1]; simp), if_neg (by rw [h2]; simp)]

/-- Evaluation of C9 on a concrete non-prefixed string. -/
theorem c9_dispatch_witness : UnmarshalLink ['x'] = .error .ErrInvalidInput :=
  (c9_dispatch ['x']).2 (by decide) (by decide) (by decide)

/-- C10: internal-form decoding applies no validity check: the well-formed
input `BERTY://PB/AAA` decodes successfully to a record of kind `Unknown`,
which the validator rejects. -/
theorem c10_internal_decode_no_validation :
    UnmarshalLink ("BERTY://PB/AAA".toList) = .ok ⟨.UnknownKind, none, none⟩
    ∧ IsValid (some ⟨.UnknownKind, none, none⟩) = .err .ErrInvalidInput := by
  exact ⟨by decide, rfl⟩

end Berty
